import Mathlib

/-!
Verification of `scripts/generate_github_stats.py`.

The Python script is shallowly embedded below.  Text is modelled as
`List Char` (Python `str`), machine integers as `Int` (Python's unbounded
`int`), and `datetime` values as integer epoch seconds; an ISO timestamp
field that is missing or unparseable is modelled as `none`, i.e. repository
timestamp fields carry the result of `iso_to_datetime` directly.  Python
float formatting in `pct` is modelled as exact rational arithmetic with
round-half-to-even at the last kept digit, implemented on integers.
-/

/-- The code points of the characters Python's `str.rstrip()` strips, i.e.
those with `str.isspace()` true (CPython `Py_UNICODE_ISSPACE`): tab,
newline, vertical tab, form feed, carriage return, the file/group/record/unit
separators U+001C-U+001F, space, next line U+0085, no-break space U+00A0,
Ogham space mark U+1680, the U+2000-U+200A spaces, line separator U+2028,
paragraph separator U+2029, narrow no-break space U+202F, medium
mathematical space U+205F and ideographic space U+3000. -/
def pySpaceCodes : List Nat :=
  [0x09, 0x0A, 0x0B, 0x0C, 0x0D, 0x1C, 0x1D, 0x1E, 0x1F, 0x20, 0x85, 0xA0,
   0x1680, 0x2000, 0x2001, 0x2002, 0x2003, 0x2004, 0x2005, 0x2006, 0x2007,
   0x2008, 0x2009, 0x200A, 0x2028, 0x2029, 0x202F, 0x205F, 0x3000]

/-- Whether `str.rstrip()` strips the character `c`. -/
def isPySpace (c : Char) : Bool :=
  pySpaceCodes.contains c.toNat

/-- Python `s.rstrip()`: remove trailing whitespace. -/
def rstrip (s : List Char) : List Char :=
  ((s.reverse).dropWhile isPySpace).reverse

/-- Python `s.lstrip("\n")`: remove leading newlines. -/
def lstripNl (s : List Char) : List Char :=
  s.dropWhile (fun c => c = '\n')

/-- Python `hay.find(pat)`, returning `none` instead of `-1`:
index of the first occurrence of `pat` in `hay`. -/
def strFind (pat : List Char) : List Char → Option Nat
  | [] => if pat <+: ([] : List Char) then some 0 else none
  | c :: t => if pat <+: (c :: t) then some 0 else (strFind pat t).map (· + 1)

/-- `SECTION_START` sentinel from the script. -/
def SECTION_START : List Char := ("<!-- PRIVATE_WORK_HIGHLIGHTS:START -->").data

/-- `SECTION_END` sentinel from the script. -/
def SECTION_END : List Char := ("<!-- PRIVATE_WORK_HIGHLIGHTS:END -->").data

/-- The `else` arm of `upsert_readme_section` (sentinels absent or malformed):
append the generated fragment after the stripped document. -/
def appendSection (current sec : List Char) : List Char :=
  let stripped := rstrip current
  if stripped.isEmpty then sec else stripped ++ '\n' :: '\n' :: sec

/-- The new document text computed by `upsert_readme_section readme_path section`
(lines 303-333 of the script), given the current file content. The argument
`sec` is the Python parameter `section`. -/
def upsertContent (current sec : List Char) : List Char :=
  match strFind SECTION_START current, strFind SECTION_END current with
  | some s, some e =>
    if s < e then
      let e2 := e + SECTION_END.length
      let repl := rstrip (current.take s) ++ '\n' :: '\n' :: sec
      if e2 < current.length then
        let tl := lstripNl (current.drop e2)
        if tl.isEmpty then repl else repl ++ '\n' :: tl
      else repl
    else appendSection current sec
  | _, _ => appendSection current sec

/-- The boolean returned by `upsert_readme_section`: `true` iff the new content
differs from the current content (in which case the file is rewritten). -/
def upsertChanged (current sec : List Char) : Bool :=
  decide (upsertContent current sec ≠ current)

/-- The default document seeded when the README file does not exist. -/
def DEFAULT_README : List Char := ("# Profile\n\n").data

/-- Repository record, at the granularity used by the script.  Field names
follow the JSON keys read by the script (`private` is renamed `is_private`,
Lean keyword).  `pushed_at`/`updated_at` hold the result of
`iso_to_datetime` (epoch seconds; `none` = missing or unparseable). -/
structure Repo where
  fork : Bool
  archived : Bool
  is_private : Bool
  stargazers_count : Int
  language : Option (List Char)
  pushed_at : Option Int
  updated_at : Option Int
  owner_login : Option (List Char)
deriving DecidableEq

/-- `latest_activity_at` (lines 135-141): max of the parseable push/update
times, `none` when neither parses. -/
def latest_activity_at (r : Repo) : Option Int :=
  match r.pushed_at, r.updated_at with
  | some p, some u => some (max p u)
  | some p, none => some p
  | none, some u => some u
  | none, none => none

/-- Number of seconds in `timedelta(days=1)`. -/
def daySeconds : Int := 86400

/-- The 30-day recency predicate used in `build_section`'s loop:
`activity_at and activity_at >= thirty_days_ago`. -/
def bucket30 (ambientNow : Int) (r : Repo) : Bool :=
  match latest_activity_at r with
  | some t => decide (ambientNow - 30 * daySeconds ≤ t)
  | none => false

/-- The 90-day recency predicate used in `build_section`'s loop. -/
def bucket90 (ambientNow : Int) (r : Repo) : Bool :=
  match latest_activity_at r with
  | some t => decide (ambientNow - 90 * daySeconds ≤ t)
  | none => false

/-- `touched_30` accumulated by `build_section`'s loop. `ambientNow` is the
value of `datetime.now(timezone.utc)` read inside `build_section`. -/
def touched30 (repos : List Repo) (ambientNow : Int) : Nat :=
  repos.countP (bucket30 ambientNow)

/-- `touched_90` accumulated by `build_section`'s loop. -/
def touched90 (repos : List Repo) (ambientNow : Int) : Nat :=
  repos.countP (bucket90 ambientNow)

/-- `forked` accumulated by `build_section`'s loop, as a Python int. -/
def forkedCount (repos : List Repo) : Int :=
  ((repos.countP (fun r => r.fork) : Nat) : Int)

/-- `archived` accumulated by `build_section`'s loop. -/
def archivedCount (repos : List Repo) : Int :=
  ((repos.countP (fun r => r.archived) : Nat) : Int)

/-- `original = max(total_source - forked, 0)` (line 257). -/
def originalCount (repos : List Repo) : Int :=
  max ((repos.length : Int) - forkedCount repos) 0

/-- `active = max(total_source - archived, 0)` (line 258). -/
def activeCount (repos : List Repo) : Int :=
  max ((repos.length : Int) - archivedCount repos) 0

/-- `public_repos` (line 223). -/
def public_repos (repos : List Repo) : List Repo :=
  repos.filter (fun r => !r.is_private)

/-- `private_repos` (line 224). -/
def private_repos (repos : List Repo) : List Repo :=
  repos.filter (fun r => r.is_private)

/-- `total_stars` (line 227), summed over public repos only. -/
def totalStars (repos : List Repo) : Int :=
  ((public_repos repos).map (fun r => r.stargazers_count)).sum

/-- One step of `language_counts[language] = language_counts.get(language, 0) + 1`
on an insertion-ordered association list (Python dict preserves insertion
order; incrementing an existing key keeps its position). -/
def bumpLang (counts : List (List Char × Nat)) (lang : List Char) :
    List (List Char × Nat) :=
  match counts with
  | [] => [(lang, 1)]
  | (l, k) :: rest =>
    if l = lang then (l, k + 1) :: rest else (l, k) :: bumpLang rest lang

/-- `language_counts` accumulated by `build_section`'s loop: only repos whose
`language` is a non-empty string are counted (line 252-254). -/
def language_counts (repos : List Repo) : List (List Char × Nat) :=
  repos.foldl
    (fun acc r =>
      match r.language with
      | some l => if l.isEmpty then acc else bumpLang acc l
      | none => acc)
    []

/-- Stable descending insertion by count: an element is placed after every
earlier element with a strictly greater count and before equal counts of
later elements, matching Python's stable `sorted(..., reverse=True)`. -/
def insertDesc (x : List Char × Nat) :
    List (List Char × Nat) → List (List Char × Nat)
  | [] => [x]
  | y :: ys => if x.2 < y.2 then y :: insertDesc x ys else x :: y :: ys

/-- `sorted(language_counts.items(), key=count, reverse=True)` (line 260):
stable descending sort by count. -/
def sortDesc : List (List Char × Nat) → List (List Char × Nat)
  | [] => []
  | x :: xs => insertDesc x (sortDesc xs)

/-- `top_languages` (line 260): top 5 after the stable descending sort. -/
def top_languages (repos : List Repo) : List (List Char × Nat) :=
  (sortDesc (language_counts repos)).take 5

/-- `lang_total` (line 261): sum of the top-5 counts. -/
def lang_total (repos : List Repo) : Nat :=
  ((top_languages repos).map Prod.snd).sum

/-- Round-half-to-even of the rational `a / b` (for `b > 0`) to the nearest
integer, in pure integer arithmetic. -/
def roundHalfEvenDiv (a b : Int) : Int :=
  let q := a.fdiv b
  let r := a.fmod b
  if 2 * r < b then q else if b < 2 * r then q + 1
  else if q % 2 = 0 then q else q + 1

/-- The number of tenths displayed by `pct` for `total > 0`:
`(part / total) * 100` rounded to one decimal place (round-half-even, as in
float formatting of the exact ratio). -/
def pctTenths (part total : Int) : Int :=
  roundHalfEvenDiv (1000 * part) total

/-- Decimal digit character. -/
def digitCh (k : Nat) : Char := Char.ofNat (48 + k)

/-- Render a non-negative number of tenths as a fixed one-decimal numeral,
e.g. `250 ↦ "25.0"`. -/
def fmtTenthsNat (m : Nat) : List Char :=
  Nat.toDigits 10 (m / 10) ++ '.' :: [digitCh (m % 10)]

/-- Render a number of tenths as a signed one-decimal numeral. -/
def fmtTenths (t : Int) : List Char :=
  if t < 0 then '-' :: fmtTenthsNat (-t).toNat else fmtTenthsNat t.toNat

/-- `pct` (lines 120-123): `"0%"` for a non-positive denominator, otherwise
the ratio as a percentage with one decimal place followed by `%`. -/
def pct (part total : Int) : List Char :=
  if total ≤ 0 then ("0%").data
  else fmtTenths (pctTenths part total) ++ ['%']

/-- Insert thousands separators into a most-significant-first digit string,
walking from the least significant end. -/
def commaGroup : List Char → Nat → List Char
  | [], _ => []
  | c :: r, k => if k = 3 then ',' :: c :: commaGroup r 1 else c :: commaGroup r (k + 1)

/-- `n` (lines 116-117): Python `f"{value:,}"` thousands-separated integer. -/
def n (value : Int) : List Char :=
  if value < 0 then
    '-' :: ((commaGroup ((Nat.toDigits 10 (-value).toNat).reverse) 0).reverse)
  else
    (commaGroup ((Nat.toDigits 10 value.toNat).reverse) 0).reverse

/-- Left-pad a digit string with zeros to width `w`. -/
def zfill (w : Nat) (s : List Char) : List Char :=
  List.replicate (w - s.length) '0' ++ s

/-- Civil (Gregorian) date from days since the Unix epoch
(Howard Hinnant's `civil_from_days`); models the calendar arithmetic that
`datetime.strftime` performs. -/
def civilFromDays (z0 : Int) : Int × Int × Int :=
  let z := z0 + 719468
  let era := z.fdiv 146097
  let doe := (z - era * 146097).toNat
  let yoe := (doe - doe / 1460 + doe / 36524 - doe / 146096) / 365
  let y' := (yoe : Int) + era * 400
  let doy := doe - (365 * yoe + yoe / 4 - yoe / 100)
  let mp := (5 * doy + 2) / 153
  let d := doy - (153 * mp + 2) / 5 + 1
  let m := (mp : Int) + (if mp < 10 then 3 else -9)
  (y' + (if m ≤ 2 then 1 else 0), m, (d : Int))

/-- `generated_at.strftime("%Y-%m-%d")` with `generated_at` in epoch seconds. -/
def strftimeYmd (ts : Int) : List Char :=
  match civilFromDays (ts.fdiv daySeconds) with
  | (y, m, d) =>
    zfill 4 (Nat.toDigits 10 y.toNat) ++ '-' ::
      (zfill 2 (Nat.toDigits 10 m.toNat) ++ '-' :: zfill 2 (Nat.toDigits 10 d.toNat))

/-- `", ".join(...)`. -/
def joinCommaSpace : List (List Char) → List Char
  | [] => []
  | [x] => x
  | x :: y :: ys => x ++ (", ").data ++ joinCommaSpace (y :: ys)

/-- `language_mix` (lines 262-267). -/
def language_mix (repos : List Repo) : List Char :=
  if 0 < lang_total repos then
    joinCommaSpace
      ((top_languages repos).map
        (fun p => p.1 ++ (" (").data ++ pct (p.2 : Int) (lang_total repos : Int) ++ (")").data))
  else ("No dominant language signal yet").data

/-- `source_label` (lines 274-283). -/
def sourceLabel (tokenPresent : Bool) : List Char :=
  if tokenPresent then
    ("aggregated from repositories visible to your configured token (public + private, including org-owned where permitted)").data
  else
    ("aggregated from publicly visible repositories only (set PRIVATE_STATS_TOKEN to include private/org repositories)").data

/-- `build_section` (lines 213-300).  `followers` stands for the only field
of the user payload the function reads (`user.get("followers", 0)`);
`generatedAt` is the injected `generated_at` timestamp; `ambientNow` is the
value of `datetime.now(timezone.utc)` that the function reads internally at
line 230 for the recency windows. -/
def buildSection (username displayName : List Char) (followers : Int)
    (repos : List Repo) (generatedAt : Int) (tokenPresent : Bool)
    (contributed_30 contributed_90 : Option Int) (ambientNow : Int) : List Char :=
  let t30 : Int :=
    match contributed_30 with
    | some v => v
    | none => (touched30 repos ambientNow : Int)
  let t90 : Int :=
    match contributed_90 with
    | some v => v
    | none => (touched90 repos ambientNow : Int)
  SECTION_START ++
  ("\n## Work Highlights (Anonymized)\n\nUpdated: ").data ++
  strftimeYmd generatedAt ++
  (" UTC\n\n- Scope: ").data ++
  sourceLabel tokenPresent ++
  (" for **").data ++
  displayName ++
  ("** (`@").data ++
  username ++
  ("`).\n- Repositories contributed to in last 30 days: **").data ++
  n t30 ++
  ("**\n- Repositories contributed to in last 90 days: **").data ++
  n t90 ++
  ("**\n- Original vs forked repos: **").data ++
  n (originalCount repos) ++
  (" / ").data ++
  n (forkedCount repos) ++
  ("**\n- Active vs archived repos: **").data ++
  n (activeCount repos) ++
  (" / ").data ++
  n (archivedCount repos) ++
  ("**\n- Language mix (top 5): ").data ++
  language_mix repos ++
  ("\n- Repo footprint: **").data ++
  n ((public_repos repos).length : Int) ++
  ("** public repos, **").data ++
  n ((private_repos repos).length : Int) ++
  ("** private repos\n- Public stars/followers: **").data ++
  n (totalStars repos) ++
  ("** stars, **").data ++
  n followers ++
  ("** followers\n\n_This section is auto-generated daily from GitHub API aggregates and intentionally excludes repo names, PR titles, and code details._\n").data ++
  SECTION_END ++ ("\n").data

/-- The ownership filter and fallback of `fetch_repos` for the
unauthenticated path (lines 106-113). -/
def filterOwned (username : List Char) (repos : List Repo) : List Repo :=
  let filtered := repos.filter (fun r => decide (r.owner_login = some username))
  if filtered.isEmpty then repos else filtered

/-- The contribution-count fetching of `main` (lines 347-357): both calls run
inside one `try`, an exception from either is caught once, printing a warning.
Returns `(contributed_30, contributed_90, warned)` as left by the block when
the two fetches return `fetch30` and `fetch90`.  A failure of the first fetch
means the second never runs. -/
def mainContributions (fetch30 fetch90 : Except (List Char) Int) :
    Option Int × Option Int × Bool :=
  match fetch30 with
  | Except.error _ => (none, none, true)
  | Except.ok a =>
    match fetch90 with
    | Except.error _ => (some a, none, true)
    | Except.ok b => (some a, some b, false)

/-- A well-formed generated fragment: it starts with the start sentinel, and
its sole occurrence of the end sentinel is at the very end, followed by the
final newline (every `build_section` output with benign inputs has this
shape). -/
def goodSection (sec : List Char) : Bool :=
  decide (SECTION_START <+: sec) &&
  decide (SECTION_END.length + 1 < sec.length) &&
  decide (sec.drop (sec.length - (SECTION_END.length + 1)) = SECTION_END ++ ['\n']) &&
  decide (strFind SECTION_END sec = some (sec.length - (SECTION_END.length + 1)))

/-- Documents on which the upsert is well behaved: either both sentinels
occur with the first start marker before the first end marker, or neither
sentinel occurs and the document is not whitespace-only. -/
def goodDoc (current : List Char) : Bool :=
  match strFind SECTION_START current, strFind SECTION_END current with
  | some s, some e => decide (s < e)
  | none, none => !(rstrip current).isEmpty
  | _, _ => false

/-! ### Generic facts about `<+:`, `strFind`, `rstrip`, `lstripNl` -/

theorem pref_nil (l : List Char) : [] <+: l := ⟨l, rfl⟩

theorem pref_refl (l : List Char) : l <+: l := ⟨[], List.append_nil l⟩

theorem pref_of_nil (p : List Char) (h : p <+: []) : p = [] := by
  obtain ⟨t, ht⟩ := h
  exact (List.append_eq_nil.mp ht).1

theorem pref_len {p x : List Char} (h : p <+: x) : p.length ≤ x.length := by
  obtain ⟨t, ht⟩ := h
  subst ht
  simp

theorem pref_trans {p q x : List Char} (h1 : p <+: q) (h2 : q <+: x) : p <+: x := by
  obtain ⟨t1, ht1⟩ := h1
  obtain ⟨t2, ht2⟩ := h2
  exact ⟨t1 ++ t2, by rw [← ht2, ← ht1, List.append_assoc]⟩

theorem pref_ext {p l : List Char} (t : List Char) (h : p <+: l) : p <+: l ++ t := by
  obtain ⟨u, hu⟩ := h
  exact ⟨u ++ t, by rw [← hu, List.append_assoc]⟩

theorem pref_take {p x : List Char} (h : p <+: x) : x.take p.length = p := by
  obtain ⟨t, ht⟩ := h
  subst ht
  exact List.take_left p t

theorem pref_of_take {p x : List Char} (h : x.take p.length = p) : p <+: x := by
  refine ⟨x.drop p.length, ?_⟩
  conv_rhs => rw [← List.take_append_drop p.length x]
  rw [h]

theorem pref_drop {p x : List Char} (j : Nat) (h : p <+: x) : p.drop j <+: x.drop j := by
  obtain ⟨t, ht⟩ := h
  subst ht
  by_cases hj : j ≤ p.length
  · rw [List.drop_append_of_le_length hj]
    exact ⟨t, rfl⟩
  · rw [List.drop_eq_nil_of_le (by omega : p.length ≤ j)]
    exact pref_nil _
  
theorem pref_append_cases {pat d x : List Char} (h : pat <+: d ++ x) :
    pat <+: d ∨ ∃ y, pat = d ++ y ∧ y <+: x := by
  obtain ⟨t, ht⟩ := h
  by_cases hl : pat.length ≤ d.length
  · left
    apply pref_of_take
    have h1 : (pat ++ t).take pat.length = pat := List.take_left pat t
    rw [ht, List.take_append_of_le_length hl] at h1
    exact h1
  · right
    have hd : pat.take d.length = d := by
      have h1 : (pat ++ t).take d.length = pat.take d.length :=
        List.take_append_of_le_length (by omega)
      rw [ht, List.take_left] at h1
      exact h1.symm
    refine ⟨pat.drop d.length, ?_, ?_⟩
    · conv_lhs => rw [← List.take_append_drop d.length pat]
      rw [hd]
    · refine ⟨t, ?_⟩
      have h3 : pat = d ++ pat.drop d.length := by
        conv_lhs => rw [← List.take_append_drop d.length pat]
        rw [hd]
      have h2 : pat ++ t = d ++ x := ht
      rw [h3, List.append_assoc] at h2
      exact List.append_cancel_left h2

theorem head_ne_not_pref {p l : List Char} {c : Char} (hc : p.head? = some c)
    (hl : l.head? ≠ some c) : ¬ p <+: l := by
  intro h
  obtain ⟨t, ht⟩ := h
  cases p with
  | nil => simp at hc
  | cons a p' =>
    simp only [List.head?_cons, Option.some.injEq] at hc
    subst hc
    apply hl
    rw [← ht]
    simp

theorem strFind_spec (pat : List Char) : ∀ (hay : List Char) (i : Nat),
    strFind pat hay = some i ↔
      (pat <+: hay.drop i ∧ ∀ j, j < i → ¬ pat <+: hay.drop j) := by
  intro hay
  induction hay with
  | nil =>
    intro i
    by_cases h : pat <+: ([] : List Char)
    · have hp : pat = [] := pref_of_nil _ h
      subst hp
      simp only [strFind, if_pos h, List.drop_nil]
      constructor
      · rintro ⟨rfl⟩
        exact ⟨pref_nil _, by omega⟩
      · rintro ⟨-, hmin⟩
        by_contra hne
        have hi : 0 < i := by
          rcases Nat.eq_zero_or_pos i with h0 | h0
          · exact absurd (by rw [h0]) hne
          · exact h0
        exact hmin 0 hi (pref_nil _)
    · simp only [strFind, if_neg h, List.drop_nil]
      constructor
      · intro hc
        exact absurd hc (by simp)
      · rintro ⟨hpre, -⟩
        exact absurd hpre h
  | cons c t ih =>
    intro i
    by_cases h : pat <+: (c :: t)
    · simp only [strFind, if_pos h]
      constructor
      · rintro ⟨rfl⟩
        exact ⟨by simpa using h, by omega⟩
      · rintro ⟨-, hmin⟩
        by_contra hne
        have hi : 0 < i := by
          rcases Nat.eq_zero_or_pos i with h0 | h0
          · exact absurd (by rw [h0]) hne
          · exact h0
        exact hmin 0 hi (by simpa using h)
    · simp only [strFind, if_neg h]
      constructor
      · intro hmap
        obtain ⟨i', hi', rfl⟩ : ∃ i', strFind pat t = some i' ∧ i = i' + 1 := by
          cases hfind : strFind pat t with
          | none => rw [hfind] at hmap; simp at hmap
          | some v =>
            rw [hfind] at hmap
            simp only [Option.map_some', Option.some.injEq] at hmap
            exact ⟨v, rfl, hmap.symm⟩
        obtain ⟨h1, h2⟩ := (ih i').mp hi'
        refine ⟨by simpa using h1, ?_⟩
        intro j hj
        cases j with
        | zero => simpa using h
        | succ j' =>
          rw [List.drop_succ_cons]
          exact h2 j' (by omega)
      · rintro ⟨hpre, hmin⟩
        cases i with
        | zero => exact absurd (by simpa using hpre) h
        | succ i' =>
          have h1 : pat <+: t.drop i' := by simpa using hpre
          have h2 : ∀ j, j < i' → ¬ pat <+: t.drop j := by
            intro j hj
            have := hmin (j + 1) (by omega)
            simpa using this
          rw [(ih i').mpr ⟨h1, h2⟩]
          rfl

theorem strFind_none_iff (pat hay : List Char) :
    strFind pat hay = none ↔ ∀ j, ¬ pat <+: hay.drop j := by
  constructor
  · intro h j hp
    -- there is an occurrence, so the least occurrence index is found
    have hex : ∃ k, pat <+: hay.drop k := ⟨j, hp⟩
    have hsome : strFind pat hay = some (Nat.find hex) :=
      (strFind_spec pat hay (Nat.find hex)).mpr
        ⟨Nat.find_spec hex, fun m hm => Nat.find_min hex hm⟩
    rw [h] at hsome
    exact Option.noConfusion hsome
  · intro h
    cases hfind : strFind pat hay with
    | none => rfl
    | some i =>
      obtain ⟨h1, -⟩ := (strFind_spec pat hay i).mp hfind
      exact absurd h1 (h i)

theorem strFind_sub_none {p x pat : List Char} (hpx : p <+: x)
    (hx : strFind pat x = none) : strFind pat p = none := by
  rw [strFind_none_iff] at hx ⊢
  intro j hp
  exact hx j (pref_trans hp (pref_drop j hpx))

theorem strFind_sub_none_of_le {p x pat : List Char} {i : Nat} (hne : pat ≠ [])
    (hpx : p <+: x) (hpl : p.length ≤ i) (hx : strFind pat x = some i) :
    strFind pat p = none := by
  rw [strFind_none_iff]
  intro j hp
  have hj : j < p.length := by
    by_contra hge
    have : p.drop j = [] := List.drop_eq_nil_of_le (by omega)
    rw [this] at hp
    exact hne (pref_of_nil _ hp)
  obtain ⟨-, hmin⟩ := (strFind_spec pat x i).mp hx
  exact hmin j (by omega) (pref_trans hp (pref_drop j hpx))

/-- If `pat` contains no newline, does not occur in `P`, and a newline
follows `P`, then no occurrence of `pat` can start inside `P`: it can
neither fit inside `P` nor straddle into the newline. -/
theorem no_occ_through_nl {P rest pat : List Char}
    (hnl : ∀ c ∈ pat, c ≠ '\n') (hP : strFind pat P = none) :
    ∀ j, j < P.length → ¬ pat <+: (P ++ '\n' :: rest).drop j := by
  intro j hj hp
  rw [List.drop_append_of_le_length (by omega)] at hp
  rcases pref_append_cases hp with hfit | ⟨y, hy, hyr⟩
  · exact (strFind_none_iff pat P).mp hP j hfit
  · cases y with
    | nil =>
      rw [List.append_nil] at hy
      exact (strFind_none_iff pat P).mp hP j (by rw [hy])
    | cons c y' =>
      obtain ⟨t, ht⟩ := hyr
      have hc : c = '\n' := by
        have := congrArg List.head? ht
        simpa using this
      subst hc
      have hmem : '\n' ∈ pat := by
        rw [hy]
        simp
      exact hnl '\n' hmem rfl

/-- Occurrences of `pat` strictly before its first occurrence `i` in `s`
remain impossible in `s ++ T`, provided the occurrence at `i` fits in `s`. -/
theorem no_occ_before_in_ext {s T pat : List Char} {i : Nat}
    (h : strFind pat s = some i) (hfit : i + pat.length ≤ s.length) :
    ∀ k, k < i → ¬ pat <+: (s ++ T).drop k := by
  intro k hk hp
  rw [List.drop_append_of_le_length (by omega)] at hp
  obtain ⟨-, hmin⟩ := (strFind_spec pat s i).mp h
  rcases pref_append_cases hp with hfit2 | ⟨y, hy, -⟩
  · exact hmin k (by omega) hfit2
  · have hlen : pat.length = (s.drop k).length + y.length := by
      rw [hy]
      simp
    rw [List.length_drop] at hlen
    omega

/-- The first occurrence of `pat` in `s` stays the first occurrence in
`s ++ T`, provided it fits in `s`. -/
theorem strFind_append_ext {s T pat : List Char} {i : Nat}
    (h : strFind pat s = some i) (hfit : i + pat.length ≤ s.length) :
    strFind pat (s ++ T) = some i := by
  obtain ⟨hocc, -⟩ := (strFind_spec pat s i).mp h
  refine (strFind_spec pat (s ++ T) i).mpr ⟨?_, no_occ_before_in_ext h hfit⟩
  rw [List.drop_append_of_le_length (by omega)]
  exact pref_ext T hocc

theorem rstrip_pref (x : List Char) : rstrip x <+: x := by
  have hsfx : ∃ u, u ++ (x.reverse.dropWhile isPySpace) = x.reverse := by
    obtain ⟨u, hu⟩ := List.dropWhile_suffix (l := x.reverse) (p := isPySpace)
    exact ⟨u, hu⟩
  obtain ⟨u, hu⟩ := hsfx
  refine ⟨u.reverse, ?_⟩
  have := congrArg List.reverse hu
  rw [List.reverse_append, List.reverse_reverse] at this
  exact this

theorem rstrip_idem (x : List Char) : rstrip (rstrip x) = rstrip x := by
  unfold rstrip
  rw [List.reverse_reverse, List.dropWhile_idempotent]

theorem rstrip_append_nl2 (x : List Char) :
    rstrip (x ++ ['\n', '\n']) = rstrip x := by
  have hnl : isPySpace '\n' = true := by decide
  unfold rstrip
  rw [List.reverse_append]
  simp [List.dropWhile, hnl]

theorem rstrip_r_append_nl2 (x : List Char) :
    rstrip (rstrip x ++ ['\n', '\n']) = rstrip x := by
  rw [rstrip_append_nl2, rstrip_idem]

theorem lstripNl_cons_nl (l : List Char) : lstripNl ('\n' :: l) = lstripNl l := by
  simp [lstripNl, List.dropWhile]

theorem lstripNl_idem (l : List Char) : lstripNl (lstripNl l) = lstripNl l := by
  unfold lstripNl
  rw [List.dropWhile_idempotent]

theorem section_start_ne : SECTION_START ≠ [] := by decide

theorem section_end_ne : SECTION_END ≠ [] := by decide

theorem section_start_no_nl : ∀ c ∈ SECTION_START, c ≠ '\n' := by decide

theorem section_end_no_nl : ∀ c ∈ SECTION_END, c ≠ '\n' := by decide

theorem section_start_head : SECTION_START.head? = some '<' := by decide

theorem section_end_head : SECTION_END.head? = some '<' := by decide

theorem goodSection_spec {sec : List Char} (h : goodSection sec = true) :
    ∃ pre, sec = pre ++ SECTION_END ++ ['\n'] ∧ 0 < pre.length ∧
      SECTION_START <+: sec ∧ strFind SECTION_END sec = some pre.length := by
  unfold goodSection at h
  simp only [Bool.and_eq_true, decide_eq_true_eq] at h
  obtain ⟨⟨⟨h1, h2⟩, h3⟩, h4⟩ := h
  have hlen : (sec.take (sec.length - (SECTION_END.length + 1))).length =
      sec.length - (SECTION_END.length + 1) := by
    rw [List.length_take]
    omega
  refine ⟨sec.take (sec.length - (SECTION_END.length + 1)), ?_, ?_, h1, ?_⟩
  · conv_lhs =>
      rw [← List.take_append_drop (sec.length - (SECTION_END.length + 1)) sec]
    rw [h3, List.append_assoc]
  · rw [hlen]
    omega
  · rw [hlen]
    exact h4

theorem drop_len_add (A B : List Char) (k : Nat) :
    (A ++ B).drop (A.length + k) = B.drop k := by
  rw [← List.drop_drop, List.drop_left]

theorem not_pref_start_nl (z : List Char) : ¬ SECTION_START <+: '\n' :: z := by
  apply head_ne_not_pref section_start_head
  simp

theorem not_pref_end_nl (z : List Char) : ¬ SECTION_END <+: '\n' :: z := by
  apply head_ne_not_pref section_end_head
  simp

/-- Documents of the shape produced by a successful upsert are fixed points
of a second upsert with the same section. -/
theorem upsertContent_fix (P sec T : List Char)
    (hP1 : strFind SECTION_START P = none) (hP2 : strFind SECTION_END P = none)
    (hP3 : rstrip P = P) (hsec : goodSection sec = true)
    (hT : T = [] ∨ ∃ u, T = '\n' :: u ∧ u ≠ [] ∧ lstripNl u = u) :
    upsertContent (P ++ '\n' :: '\n' :: (sec ++ T)) sec =
      P ++ '\n' :: '\n' :: (sec ++ T) := by
  obtain ⟨pre, hdecomp, hpre0, hSSsec, hEfind⟩ := goodSection_spec hsec
  have hE36 : SECTION_END.length = 36 := by decide
  have hseclen : sec.length = pre.length + 37 := by
    rw [hdecomp]
    simp [hE36]
  set doc := P ++ '\n' :: '\n' :: (sec ++ T) with hdoc
  have hdoc2 : doc = (P ++ ['\n', '\n']) ++ (sec ++ T) := by simp [hdoc]
  have hnl2len : (P ++ ['\n', '\n']).length = P.length + 2 := by simp
  have hdoclen : doc.length = P.length + 2 + (sec.length + T.length) := by
    rw [hdoc2]
    simp
    omega
  have hdropP : doc.drop P.length = '\n' :: '\n' :: (sec ++ T) := by
    rw [hdoc, List.drop_left]
  have hdropP1 : doc.drop (P.length + 1) = '\n' :: (sec ++ T) := by
    have : doc = (P ++ ['\n']) ++ '\n' :: (sec ++ T) := by simp [hdoc]
    rw [this, List.drop_left' (by simp)]
  have hdropP2 : doc.drop (P.length + 2) = sec ++ T := by
    rw [hdoc2, List.drop_left' hnl2len]
  -- location of the start sentinel in `doc`
  have hfindS : strFind SECTION_START doc = some (P.length + 2) := by
    apply (strFind_spec _ _ _).mpr
    refine ⟨?_, ?_⟩
    · rw [hdropP2]
      exact pref_ext T hSSsec
    · intro j hj
      rcases Nat.lt_or_ge j P.length with hjP | hjge
      · rw [hdoc]
        exact no_occ_through_nl section_start_no_nl hP1 j hjP
      · rcases Nat.eq_or_lt_of_le hjge with hjeq | hjgt
        · rw [← hjeq, hdropP]
          exact not_pref_start_nl _
        · have : j = P.length + 1 := by omega
          rw [this, hdropP1]
          exact not_pref_start_nl _
  -- location of the end sentinel in `doc`
  have hfitE : pre.length + SECTION_END.length ≤ sec.length := by omega
  have hfindE : strFind SECTION_END doc = some (P.length + 2 + pre.length) := by
    apply (strFind_spec _ _ _).mpr
    refine ⟨?_, ?_⟩
    · have hrw : doc.drop (P.length + 2 + pre.length) = (sec ++ T).drop pre.length := by
        rw [hdoc2,
          show P.length + 2 + pre.length = (P ++ ['\n', '\n']).length + pre.length from by simp,
          drop_len_add]
      have hsecT : sec ++ T = pre ++ (SECTION_END ++ ('\n' :: T)) := by
        rw [hdecomp]
        simp [List.append_assoc]
      rw [hrw, hsecT, List.drop_left]
      exact ⟨'\n' :: T, rfl⟩
    · intro j hj
      rcases Nat.lt_or_ge j P.length with hjP | hjge
      · rw [hdoc]
        exact no_occ_through_nl section_end_no_nl hP2 j hjP
      · rcases Nat.eq_or_lt_of_le hjge with hjeq | hjgt
        · rw [← hjeq, hdropP]
          exact not_pref_end_nl _
        · rcases Nat.eq_or_lt_of_le hjgt with hjeq1 | hjgt1
          · rw [← hjeq1, hdropP1]
            exact not_pref_end_nl _
          · obtain ⟨k, hkeq, hklt⟩ :
                ∃ k, j = P.length + 2 + k ∧ k < pre.length := ⟨j - (P.length + 2), by omega, by omega⟩
            subst hkeq
            have hrwk : doc.drop (P.length + 2 + k) = (sec ++ T).drop k := by
              rw [hdoc2,
                show P.length + 2 + k = (P ++ ['\n', '\n']).length + k from by simp,
                drop_len_add]
            rw [hrwk]
            exact no_occ_before_in_ext hEfind hfitE k hklt
  -- evaluate the found branch
  have htake : doc.take (P.length + 2) = P ++ ['\n', '\n'] := by
    rw [hdoc2, List.take_left' hnl2len]
  have hrstrip : rstrip (doc.take (P.length + 2)) = P := by
    rw [htake, rstrip_append_nl2, hP3]
  have he2lt : P.length + 2 + pre.length + SECTION_END.length < doc.length := by
    omega
  have hdropE2 :
      doc.drop (P.length + 2 + pre.length + SECTION_END.length) = '\n' :: T := by
    have hform : doc = ((P ++ ['\n', '\n']) ++ pre ++ SECTION_END) ++ '\n' :: T := by
      rw [hdoc, hdecomp]
      simp [List.append_assoc]
    have hlen4 : ((P ++ ['\n', '\n']) ++ pre ++ SECTION_END).length =
        P.length + 2 + pre.length + SECTION_END.length := by
      simp
      omega
    rw [hform, List.drop_left' hlen4]
  simp only [upsertContent, hfindS, hfindE]
  rw [if_pos (by omega : P.length + 2 < P.length + 2 + pre.length)]
  rw [hrstrip, if_pos he2lt, hdropE2]
  rcases hT with hTnil | ⟨u, hTu, hune, hustrip⟩
  · subst hTnil
    have h1 : lstripNl ('\n' :: ([] : List Char)) = [] := by
      simp [lstripNl, List.dropWhile]
    rw [h1]
    simp [hdoc]
  · subst hTu
    have h1 : lstripNl ('\n' :: '\n' :: u) = u := by
      rw [lstripNl_cons_nl, lstripNl_cons_nl, hustrip]
    rw [h1]
    have h2 : u.isEmpty = false := by
      cases u with
      | nil => exact absurd rfl hune
      | cons a l => rfl
    rw [h2]
    simp [hdoc, List.append_assoc]

/-- The output of any upsert on a `goodDoc` document has the fixed-point
shape required by `upsertContent_fix`. -/
theorem upsertContent_shape (current sec : List Char)
    (hdoc : goodDoc current = true) :
    ∃ P T, upsertContent current sec = P ++ '\n' :: '\n' :: (sec ++ T) ∧
      strFind SECTION_START P = none ∧ strFind SECTION_END P = none ∧
      rstrip P = P ∧ (T = [] ∨ ∃ u, T = '\n' :: u ∧ u ≠ [] ∧ lstripNl u = u) := by
  cases hS : strFind SECTION_START current with
  | none =>
    cases hE : strFind SECTION_END current with
    | none =>
      have hrs : (rstrip current).isEmpty = false := by
        unfold goodDoc at hdoc
        rw [hS, hE] at hdoc
        simpa using hdoc
      refine ⟨rstrip current, [], ?_,
        strFind_sub_none (rstrip_pref current) hS,
        strFind_sub_none (rstrip_pref current) hE,
        rstrip_idem current, Or.inl rfl⟩
      simp only [upsertContent, hS, hE, appendSection, hrs]
      simp
    | some e =>
      exfalso
      unfold goodDoc at hdoc
      rw [hS, hE] at hdoc
      simp at hdoc
  | some s =>
    cases hE : strFind SECTION_END current with
    | none =>
      exfalso
      unfold goodDoc at hdoc
      rw [hS, hE] at hdoc
      simp at hdoc
    | some e =>
      have hse : s < e := by
        unfold goodDoc at hdoc
        rw [hS, hE] at hdoc
        simpa using hdoc
      obtain ⟨hoccS, hminS⟩ := (strFind_spec _ _ _).mp hS
      obtain ⟨hoccE, hminE⟩ := (strFind_spec _ _ _).mp hE
      have hPlen : (rstrip (current.take s)).length ≤ s := by
        have h1 := pref_len (rstrip_pref (current.take s))
        rw [List.length_take] at h1
        omega
      have hPpre : rstrip (current.take s) <+: current :=
        pref_trans (rstrip_pref _) ⟨current.drop s, List.take_append_drop s current⟩
      have hP1 : strFind SECTION_START (rstrip (current.take s)) = none :=
        strFind_sub_none_of_le section_start_ne hPpre hPlen hS
      have hP2 : strFind SECTION_END (rstrip (current.take s)) = none :=
        strFind_sub_none_of_le section_end_ne hPpre (by omega) hE
      simp only [upsertContent, hS, hE]
      rw [if_pos hse]
      by_cases hcut : e + SECTION_END.length < current.length
      · rw [if_pos hcut]
        by_cases hemp : (lstripNl (current.drop (e + SECTION_END.length))).isEmpty = true
        · rw [hemp]
          refine ⟨rstrip (current.take s), [], ?_, hP1, hP2, rstrip_idem _, Or.inl rfl⟩
          simp
        · have hempf : (lstripNl (current.drop (e + SECTION_END.length))).isEmpty = false :=
            Bool.eq_false_iff.mpr hemp
          rw [hempf]
          refine ⟨rstrip (current.take s),
            '\n' :: lstripNl (current.drop (e + SECTION_END.length)), ?_, hP1, hP2,
            rstrip_idem _, Or.inr ⟨lstripNl (current.drop (e + SECTION_END.length)), rfl,
              fun hnil => hemp (by rw [hnil]; rfl), lstripNl_idem _⟩⟩
          simp [List.append_assoc]
      · rw [if_neg hcut]
        refine ⟨rstrip (current.take s), [], ?_, hP1, hP2, rstrip_idem _, Or.inl rfl⟩
        simp

/-- Claim C1 (amended): for every existing document that either contains both
sentinels with the first start marker before the first end marker, or
contains neither sentinel and is not whitespace-only, and for every
well-formed generated section, applying `upsert_readme_section` twice with
the same section yields the same final document as applying it once, and the
second application reports no change (returns `False`, leaving the file
unwritten). -/
theorem upsert_readme_section_idempotent (current sec : List Char)
    (hdoc : goodDoc current = true) (hsec : goodSection sec = true) :
    upsertContent (upsertContent current sec) sec = upsertContent current sec ∧
    upsertChanged (upsertContent current sec) sec = false := by
  obtain ⟨P, T, heq, h1, h2, h3, h4⟩ := upsertContent_shape current sec hdoc
  have hfix : upsertContent (upsertContent current sec) sec = upsertContent current sec := by
    conv_lhs => rw [heq]
    rw [heq]
    exact upsertContent_fix P sec T h1 h2 h3 hsec h4
  refine ⟨hfix, ?_⟩
  unfold upsertChanged
  rw [hfix]
  simp

/-- A minimal well-formed generated section used to exercise the amended
idempotence theorem. -/
def demoSec : List Char :=
  SECTION_START ++ ("\nx\n").data ++ SECTION_END ++ ("\n").data

theorem upsert_readme_section_idempotent_witness :
    goodDoc DEFAULT_README = true ∧ goodSection demoSec = true ∧
    (upsertContent (upsertContent DEFAULT_README demoSec) demoSec =
        upsertContent DEFAULT_README demoSec ∧
      upsertChanged (upsertContent DEFAULT_README demoSec) demoSec = false) :=
  ⟨by decide, by decide,
    upsert_readme_section_idempotent DEFAULT_README demoSec (by decide) (by decide)⟩

/-- A concrete `build_section` output (empty repository list, no token,
epoch timestamps), used as the generated section text of counterexamples. -/
def genSec : List Char :=
  buildSection (("u").data) (("u").data) 0 [] 0 false none none 0

set_option maxRecDepth 100000 in
/-- Counterexample to C1 as stated: on the empty existing document, the first
application returns the section itself, but the second application rewrites
the document (prepending a blank line) and reports a change. -/
theorem upsert_readme_section_not_idempotent_on_empty :
    upsertChanged (upsertContent [] genSec) genSec = true ∧
    upsertContent (upsertContent [] genSec) genSec ≠ upsertContent [] genSec := by
  decide

/-- Claim C2 (amended): when the text before the start sentinel consists of a
whitespace-normalized prefix followed by exactly one blank line, and the text
after the end sentinel is exactly one newline followed by non-newline-led
content, `upsert_readme_section` replaces only the bounded region: every
character before the start sentinel and every character after the end
sentinel is preserved verbatim.  (In general the prefix is preserved only up
to `rstrip` of its trailing whitespace and the tail only up to `lstrip` of
its leading newlines.) -/
theorem upsert_preserves_frame (current sec P t : List Char) (s e : Nat)
    (hS : strFind SECTION_START current = some s)
    (hE : strFind SECTION_END current = some e)
    (hse : s < e)
    (hpre : current.take s = P ++ ['\n', '\n'])
    (hP : rstrip P = P)
    (htl : current.drop (e + SECTION_END.length) = '\n' :: t)
    (ht1 : t ≠ [])
    (ht2 : lstripNl t = t) :
    upsertContent current sec =
      current.take s ++ sec ++ current.drop (e + SECTION_END.length) := by
  have hcut : e + SECTION_END.length < current.length := by
    have hlen := congrArg List.length htl
    rw [List.length_drop] at hlen
    simp only [List.length_cons] at hlen
    omega
  simp only [upsertContent, hS, hE]
  rw [if_pos hse, if_pos hcut, htl, lstripNl_cons_nl, ht2]
  have hemp : t.isEmpty = false := by
    cases t with
    | nil => exact absurd rfl ht1
    | cons a l => rfl
  rw [hemp, hpre, rstrip_append_nl2, hP]
  simp [List.append_assoc]

/-- A normalized document with sentinels, prefix text, and trailing text. -/
def demoCur : List Char :=
  ("Intro\n\n").data ++ SECTION_START ++ ("\nold\n").data ++ SECTION_END ++ ("\nTail\n").data

theorem upsert_preserves_frame_witness :
    upsertContent demoCur demoSec =
      demoCur.take 7 ++ demoSec ++ demoCur.drop (50 + SECTION_END.length) :=
  upsert_preserves_frame demoCur demoSec (("Intro").data) (("Tail\n").data) 7 50
    (by decide) (by decide) (by decide) (by decide) (by decide) (by decide)
    (by decide) (by decide)

/-- A document whose pre-sentinel text ends in a tab. -/
def curTab : List Char :=
  ("A\t").data ++ SECTION_START ++ ("m").data ++ SECTION_END

/-- Counterexample to C2 as stated: the tab character before the start
sentinel is dropped by the prefix `rstrip`, so it is not preserved anywhere
in the updated document. -/
theorem upsert_drops_char_before_sentinel :
    '\t' ∈ curTab.take 2 ∧ '\t' ∉ upsertContent curTab demoSec := by
  decide

/-- A repository whose only parseable activity timestamp is the epoch. -/
def repoPushedEpoch : Repo :=
  { fork := false, archived := false, is_private := false, stargazers_count := 0,
    language := none, pushed_at := some 0, updated_at := none, owner_login := none }

set_option maxRecDepth 100000 in
/-- Claim C3 (code bug): `build_section` is not a function of its inputs and
the supplied `generated_at` alone — it reads `datetime.now()` internally for
the recency windows, so with identical arguments (including `generated_at`)
two evaluations at different ambient clock readings produce different output
bytes. -/
theorem build_section_depends_on_ambient_clock :
    buildSection (("u").data) (("u").data) 0 [repoPushedEpoch] 0 false none none 0 ≠
      buildSection (("u").data) (("u").data) 0 [repoPushedEpoch] 0 false none none
        (100 * daySeconds) := by
  decide

/-- Claim C4: for every repository list, `original + forked` and
`active + archived` both equal the total count, and all four are
non-negative (the subtractions are clamped at zero). -/
theorem splits_sum_to_total (repos : List Repo) :
    originalCount repos + forkedCount repos = (repos.length : Int) ∧
    activeCount repos + archivedCount repos = (repos.length : Int) ∧
    0 ≤ originalCount repos ∧ 0 ≤ forkedCount repos ∧
    0 ≤ activeCount repos ∧ 0 ≤ archivedCount repos := by
  have hf : repos.countP (fun r => r.fork) ≤ repos.length := List.countP_le_length _
  have ha : repos.countP (fun r => r.archived) ≤ repos.length := List.countP_le_length _
  have hf' : forkedCount repos ≤ (repos.length : Int) := by
    unfold forkedCount
    exact_mod_cast hf
  have ha' : archivedCount repos ≤ (repos.length : Int) := by
    unfold archivedCount
    exact_mod_cast ha
  have hforig : originalCount repos = (repos.length : Int) - forkedCount repos := by
    unfold originalCount
    exact max_eq_left (by omega)
  have hfact : activeCount repos = (repos.length : Int) - archivedCount repos := by
    unfold activeCount
    exact max_eq_left (by omega)
  have hf0 : 0 ≤ forkedCount repos := by
    unfold forkedCount
    exact_mod_cast Nat.zero_le _
  have ha0 : 0 ≤ archivedCount repos := by
    unfold archivedCount
    exact_mod_cast Nat.zero_le _
  refine ⟨by omega, by omega, by omega, hf0, by omega, ha0⟩

theorem digitCh_isDigit (k : Nat) (h : k < 10) : (digitCh k).isDigit = true := by
  interval_cases k <;> decide

/-- Claim C5: `pct 0 0 = "0%"`, `pct 1 4 = "25.0%"`; every non-positive
denominator yields `"0%"` before any division, and every positive denominator
yields the rounded ratio rendered with one decimal place followed by `%`. -/
theorem pct_spec :
    pct 0 0 = ("0%").data ∧
    pct 1 4 = ("25.0%").data ∧
    (∀ part total : Int, total ≤ 0 → pct part total = ("0%").data) ∧
    (∀ part total : Int, 0 < total →
      pct part total = fmtTenths (pctTenths part total) ++ ['%'] ∧
      ∃ w d, pct part total = w ++ '.' :: d :: ['%'] ∧ d.isDigit = true) := by
  refine ⟨by decide, by decide, ?_, ?_⟩
  · intro part total h
    unfold pct
    rw [if_pos h]
  · intro part total h
    have hnle : ¬ total ≤ 0 := by omega
    refine ⟨by unfold pct; rw [if_neg hnle], ?_⟩
    unfold pct
    rw [if_neg hnle]
    unfold fmtTenths fmtTenthsNat
    by_cases hneg : pctTenths part total < 0
    · rw [if_pos hneg]
      refine ⟨'-' :: Nat.toDigits 10 ((-pctTenths part total).toNat / 10),
        digitCh ((-pctTenths part total).toNat % 10), ?_,
        digitCh_isDigit _ (Nat.mod_lt _ (by omega))⟩
      simp [List.append_assoc]
    · rw [if_neg hneg]
      refine ⟨Nat.toDigits 10 ((pctTenths part total).toNat / 10),
        digitCh ((pctTenths part total).toNat % 10), ?_,
        digitCh_isDigit _ (Nat.mod_lt _ (by omega))⟩
      simp [List.append_assoc]

theorem pct_spec_witness :
    pct 3 (-1) = ("0%").data ∧
    (pct 7 2 = fmtTenths (pctTenths 7 2) ++ ['%'] ∧
      ∃ w d, pct 7 2 = w ++ '.' :: d :: ['%'] ∧ d.isDigit = true) :=
  ⟨pct_spec.2.2.1 3 (-1) (by decide), pct_spec.2.2.2 7 2 (by decide)⟩

/-- Claim C6: the unauthenticated listing keeps exactly the records whose
owner login equals the requested username, except that when no record
matches, the unfiltered list is returned instead of an empty result. -/
theorem fetch_repos_owner_filter (username : List Char) (repos : List Repo) :
    ((∃ r ∈ repos, r.owner_login = some username) →
      filterOwned username repos =
        repos.filter (fun r => decide (r.owner_login = some username))) ∧
    ((∀ r ∈ repos, r.owner_login ≠ some username) →
      filterOwned username repos = repos) := by
  constructor
  · rintro ⟨r, hr, hlogin⟩
    have hne : (repos.filter (fun r => decide (r.owner_login = some username))).isEmpty
        = false := by
      rcases hfe : (repos.filter (fun r => decide (r.owner_login = some username))) with
        _ | _
      · rw [List.filter_eq_nil_iff] at hfe
        exact absurd (by simpa using hlogin) (by simpa using hfe r hr)
      · rw [hfe]
        rfl
    unfold filterOwned
    simp only [hne]
    simp
  · intro h
    have hnil : repos.filter (fun r => decide (r.owner_login = some username)) = [] := by
      rw [List.filter_eq_nil_iff]
      intro a ha
      simpa using h a ha
    unfold filterOwned
    simp only [hnil]
    simp

/-- A repository owned by user `u`. -/
def rOwnU : Repo :=
  { fork := false, archived := false, is_private := false, stargazers_count := 0,
    language := none, pushed_at := none, updated_at := none,
    owner_login := some (("u").data) }

/-- A repository owned by user `v`. -/
def rOwnV : Repo :=
  { fork := false, archived := false, is_private := false, stargazers_count := 0,
    language := none, pushed_at := none, updated_at := none,
    owner_login := some (("v").data) }

theorem fetch_repos_owner_filter_witness :
    filterOwned (("u").data) [rOwnU, rOwnV] = [rOwnU] ∧
    filterOwned (("u").data) [rOwnV] = [rOwnV] := by
  constructor
  · rw [(fetch_repos_owner_filter (("u").data) [rOwnU, rOwnV]).1
      ⟨rOwnU, by simp, by decide⟩]
    decide
  · exact (fetch_repos_owner_filter (("u").data) [rOwnV]).2 (by decide)

/-- Claim C7: the recency boundary is inclusive — a record whose latest
activity is exactly `now` minus 30 days is counted in the 30-day (and 90-day)
bucket, and a record with no parseable timestamp is counted in neither
bucket (the aggregation is total, so it cannot raise). -/
theorem recency_boundary_inclusive (r : Repo) (now : Int) :
    (latest_activity_at r = some (now - 30 * daySeconds) →
      touched30 [r] now = 1 ∧ touched90 [r] now = 1) ∧
    (r.pushed_at = none ∧ r.updated_at = none →
      touched30 [r] now = 0 ∧ touched90 [r] now = 0) := by
  constructor
  · intro h
    have h30 : bucket30 now r = true := by
      simp only [bucket30, h]
      simp
    have h90 : bucket90 now r = true := by
      simp only [bucket90, h]
      simp [daySeconds]
      omega
    simp [touched30, touched90, List.countP_cons, h30, h90, List.countP_nil]
  · rintro ⟨hp, hu⟩
    have hlat : latest_activity_at r = none := by
      simp [latest_activity_at, hp, hu]
    have h30 : bucket30 now r = false := by
      simp [bucket30, hlat]
    have h90 : bucket90 now r = false := by
      simp [bucket90, hlat]
    simp [touched30, touched90, List.countP_cons, h30, h90, List.countP_nil]

/-- A repository last active exactly 30 days before time zero. -/
def rBoundary : Repo :=
  { fork := false, archived := false, is_private := false, stargazers_count := 0,
    language := none, pushed_at := some (-2592000), updated_at := none,
    owner_login := none }

/-- A repository with no parseable timestamps. -/
def rNoTs : Repo :=
  { fork := false, archived := false, is_private := false, stargazers_count := 0,
    language := none, pushed_at := none, updated_at := none, owner_login := none }

theorem recency_boundary_inclusive_witness :
    (touched30 [rBoundary] 0 = 1 ∧ touched90 [rBoundary] 0 = 1) ∧
    (touched30 [rNoTs] 0 = 0 ∧ touched90 [rNoTs] 0 = 0) :=
  ⟨(recency_boundary_inclusive rBoundary 0).1 (by decide),
   (recency_boundary_inclusive rNoTs 0).2 (by decide)⟩

/-- Claim C8 (amended): a failure of the 30-day contribution fetch leaves
both counts falling back to the activity-based aggregation; a failure of
only the 90-day fetch keeps the contribution-based 30-day count and lets
only the 90-day count fall back; in either case a warning is emitted and the
run continues; and supplying no contribution counts to `build_section` is
exactly the activity-timestamp-based aggregation. -/
theorem contribution_fallback (a b : Int) (m : List Char)
    (f90 : Except (List Char) Int) :
    mainContributions (Except.error m) f90 = (none, none, true) ∧
    mainContributions (Except.ok a) (Except.error m) = (some a, none, true) ∧
    mainContributions (Except.ok a) (Except.ok b) = (some a, some b, false) ∧
    (∀ username displayName followers repos generatedAt tokenPresent ambientNow,
      buildSection username displayName followers repos generatedAt tokenPresent
          none none ambientNow =
        buildSection username displayName followers repos generatedAt tokenPresent
          (some (touched30 repos ambientNow : Int))
          (some (touched90 repos ambientNow : Int)) ambientNow) := by
  refine ⟨rfl, rfl, rfl, ?_⟩
  intros
  rfl

set_option maxRecDepth 100000 in
/-- Counterexample to C8 as stated: when the 90-day contribution fetch fails
after the 30-day fetch succeeded, `contributed_30` is already assigned, so
the 30-day count in the output is contribution-based — the output differs
from the pure activity-based aggregation. -/
theorem contribution_partial_failure_keeps_count :
    mainContributions (Except.ok 5) (Except.error (("boom").data)) =
      (some 5, none, true) ∧
    buildSection (("u").data) (("u").data) 0 [] 0 false (some 5) none 0 ≠
      buildSection (("u").data) (("u").data) 0 [] 0 false none none 0 := by
  refine ⟨rfl, ?_⟩
  decide

/-- Claim C9: the empty repository list yields all-zero counts, renders the
fixed no-data sentinel for the language mix, and every percentage with a
zero denominator is defined as `"0%"` without dividing. -/
theorem empty_input_aggregates :
    totalStars [] = 0 ∧ forkedCount [] = 0 ∧ originalCount [] = 0 ∧
    archivedCount [] = 0 ∧ activeCount [] = 0 ∧
    (public_repos []).length = 0 ∧ (private_repos []).length = 0 ∧
    (∀ nowT : Int, touched30 [] nowT = 0 ∧ touched90 [] nowT = 0) ∧
    language_mix [] = ("No dominant language signal yet").data ∧
    lang_total [] = 0 ∧
    (∀ p : Int, pct p 0 = ("0%").data) := by
  refine ⟨by decide, by decide, by decide, by decide, by decide, by decide, by decide,
    fun nowT => ⟨rfl, rfl⟩, by decide, by decide, fun p => ?_⟩
  unfold pct
  rw [if_pos (le_refl 0)]

theorem insertDesc_perm (x : List Char × Nat) (l : List (List Char × Nat)) :
    List.Perm (insertDesc x l) (x :: l) := by
  induction l with
  | nil => exact List.Perm.refl _
  | cons y ys ih =>
    unfold insertDesc
    by_cases h : x.2 < y.2
    · rw [if_pos h]
      exact (List.Perm.cons y ih).trans (List.Perm.swap x y ys)
    · rw [if_neg h]

theorem insertDesc_sorted (x : List Char × Nat) (l : List (List Char × Nat))
    (hl : l.Pairwise (fun a b => b.2 ≤ a.2)) :
    (insertDesc x l).Pairwise (fun a b => b.2 ≤ a.2) := by
  induction l with
  | nil => simp [insertDesc]
  | cons y ys ih =>
    rw [List.pairwise_cons] at hl
    obtain ⟨hy, hys⟩ := hl
    unfold insertDesc
    by_cases h : x.2 < y.2
    · rw [if_pos h]
      rw [List.pairwise_cons]
      refine ⟨?_, ih hys⟩
      intro z hz
      have hz' : z = x ∨ z ∈ ys := by
        have := (insertDesc_perm x ys).mem_iff.mp hz
        simpa using this
      rcases hz' with rfl | hz'
      · omega
      · exact hy z hz'
    · rw [if_neg h]
      rw [List.pairwise_cons]
      refine ⟨?_, List.pairwise_cons.mpr ⟨hy, hys⟩⟩
      intro z hz
      rcases (by simpa using hz : z = y ∨ z ∈ ys) with rfl | hz'
      · omega
      · have := hy z hz'
        omega

theorem insertDesc_filter (x : List Char × Nat) (l : List (List Char × Nat)) (k : Nat) :
    (insertDesc x l).filter (fun p => decide (p.2 = k)) =
      (x :: l).filter (fun p => decide (p.2 = k)) := by
  induction l with
  | nil => rfl
  | cons y ys ih =>
    unfold insertDesc
    by_cases h : x.2 < y.2
    · rw [if_pos h]
      by_cases hx : x.2 = k
      · have hyk : ¬ y.2 = k := by omega
        simp [List.filter_cons, ih, hx, hyk]
      · simp [List.filter_cons, ih, hx]
    · rw [if_neg h]

theorem sortDesc_perm (l : List (List Char × Nat)) : List.Perm (sortDesc l) l := by
  induction l with
  | nil => exact List.Perm.refl _
  | cons x xs ih =>
    exact (insertDesc_perm x (sortDesc xs)).trans (List.Perm.cons x ih)

theorem sortDesc_sorted (l : List (List Char × Nat)) :
    (sortDesc l).Pairwise (fun a b => b.2 ≤ a.2) := by
  induction l with
  | nil => simp [sortDesc]
  | cons x xs ih => exact insertDesc_sorted x (sortDesc xs) ih

theorem sortDesc_filter (l : List (List Char × Nat)) (k : Nat) :
    (sortDesc l).filter (fun p => decide (p.2 = k)) =
      l.filter (fun p => decide (p.2 = k)) := by
  induction l with
  | nil => rfl
  | cons x xs ih =>
    have h1 := insertDesc_filter x (sortDesc xs) k
    rw [sortDesc]
    rw [h1, List.filter_cons, List.filter_cons, ih]

theorem bumpLang_sum (acc : List (List Char × Nat)) (lang : List Char) :
    ((bumpLang acc lang).map Prod.snd).sum = ((acc.map Prod.snd).sum) + 1 := by
  induction acc with
  | nil => rfl
  | cons y ys ih =>
    obtain ⟨l, k⟩ := y
    unfold bumpLang
    by_cases h : l = lang
    · rw [if_pos h]
      simp
      omega
    · rw [if_neg h]
      simp [ih]
      omega

theorem bumpLang_keys (acc : List (List Char × Nat)) (lang : List Char)
    (hacc : ∀ p ∈ acc, p.1 ≠ []) (hlang : lang ≠ []) :
    ∀ p ∈ bumpLang acc lang, p.1 ≠ [] := by
  induction acc with
  | nil =>
    intro p hp
    simp only [bumpLang, List.mem_singleton] at hp
    rw [hp]
    exact hlang
  | cons y ys ih =>
    obtain ⟨l, k⟩ := y
    intro p hp
    unfold bumpLang at hp
    by_cases h : l = lang
    · rw [if_pos h] at hp
      rcases (by simpa using hp : p = (l, k + 1) ∨ p ∈ ys) with rfl | hmem
      · exact hacc (l, k) (by simp)
      · exact hacc p (by simp [hmem])
    · rw [if_neg h] at hp
      rcases (by simpa using hp : p = (l, k) ∨ p ∈ bumpLang ys lang) with rfl | hmem
      · exact hacc (l, k) (by simp)
      · exact ih (fun q hq => hacc q (by simp [hq])) p hmem

/-- The predicate "this repository contributes to the language counts". -/
def hasLanguage (r : Repo) : Bool :=
  match r.language with
  | some l => !l.isEmpty
  | none => false

theorem language_counts_sum_aux (repos : List Repo) :
    ∀ acc : List (List Char × Nat),
      (((repos.foldl
        (fun acc r =>
          match r.language with
          | some l => if l.isEmpty then acc else bumpLang acc l
          | none => acc)
        acc).map Prod.snd).sum) =
      ((acc.map Prod.snd).sum) + repos.countP hasLanguage := by
  induction repos with
  | nil =>
    intro acc
    simp
  | cons r rs ih =>
    intro acc
    rw [List.foldl_cons, List.countP_cons]
    cases hl : r.language with
    | none =>
      simp only [hl]
      rw [ih acc]
      have : hasLanguage r = false := by simp [hasLanguage, hl]
      rw [this]
      simp
    | some l =>
      simp only [hl]
      by_cases hemp : l.isEmpty = true
      · rw [if_pos hemp]
        rw [ih acc]
        have : hasLanguage r = false := by simp [hasLanguage, hl, hemp]
        rw [this]
        simp
      · rw [if_neg hemp]
        rw [ih (bumpLang acc l), bumpLang_sum]
        have : hasLanguage r = true := by
          simp only [hasLanguage, hl, Bool.not_eq_true']
          exact Bool.eq_false_iff.mpr hemp
        rw [this]
        simp
        omega

theorem language_counts_sum (repos : List Repo) :
    ((language_counts repos).map Prod.snd).sum = repos.countP hasLanguage := by
  have := language_counts_sum_aux repos []
  simpa [language_counts] using this

theorem language_counts_keys_aux (repos : List Repo) :
    ∀ acc : List (List Char × Nat), (∀ p ∈ acc, p.1 ≠ []) →
      ∀ p ∈ (repos.foldl
        (fun acc r =>
          match r.language with
          | some l => if l.isEmpty then acc else bumpLang acc l
          | none => acc)
        acc), p.1 ≠ [] := by
  induction repos with
  | nil =>
    intro acc hacc
    simpa using hacc
  | cons r rs ih =>
    intro acc hacc
    rw [List.foldl_cons]
    cases hl : r.language with
    | none => exact ih acc hacc
    | some l =>
      by_cases hemp : l.isEmpty = true
      · simp only [hl, if_pos hemp]
        exact ih acc hacc
      · simp only [hl, if_neg hemp]
        refine ih (bumpLang acc l) (bumpLang_keys acc l hacc ?_)
        intro hnil
        rw [hnil] at hemp
        exact hemp rfl

theorem language_counts_keys (repos : List Repo) :
    ∀ p ∈ language_counts repos, p.1 ≠ [] := by
  have := language_counts_keys_aux repos [] (by simp)
  simpa [language_counts] using this

theorem sum_map_div (l : List (List Char × Nat)) (T : ℚ) :
    (l.map (fun p => (p.2 : ℚ) / T)).sum =
      ((l.map (fun p => ((p.2 : ℚ)))).sum) / T := by
  induction l with
  | nil => simp
  | cons y ys ih =>
    simp only [List.map_cons, List.sum_cons, ih]
    rw [add_div]

theorem sum_map_ratio (l : List (List Char × Nat)) (T : ℚ) (hT : T ≠ 0)
    (hsum : ((l.map (fun p => ((p.2 : ℚ)))).sum) = T) :
    (l.map (fun p => (p.2 : ℚ) / T)).sum = 1 := by
  rw [sum_map_div, hsum, div_self hT]

theorem cast_sum_snd (l : List (List Char × Nat)) :
    ((l.map (fun p => ((p.2 : ℚ)))).sum) = (((l.map Prod.snd).sum : Nat) : ℚ) := by
  induction l with
  | nil => simp
  | cons y ys ih =>
    simp only [List.map_cons, List.sum_cons, ih]
    push_cast
    ring

/-- Claim C10 (amended): only repositories whose language is a non-empty
string are counted; the displayed languages are the top 5 of a stable
descending sort by count (sortedness, permutation and tie-stability below);
each displayed percentage is computed relative to the sum of the top-5
counts only, so the exact (unrounded) ratios of the listed languages sum to
1 whenever any language is present.  (The displayed one-decimal values can
sum to less than 100%, see the counterexample.) -/
theorem language_mix_top5 (repos : List Repo) :
    (∀ p ∈ language_counts repos, p.1 ≠ []) ∧
    ((language_counts repos).map Prod.snd).sum = repos.countP hasLanguage ∧
    (sortDesc (language_counts repos)).Pairwise (fun a b => b.2 ≤ a.2) ∧
    List.Perm (sortDesc (language_counts repos)) (language_counts repos) ∧
    (∀ k, (sortDesc (language_counts repos)).filter (fun p => decide (p.2 = k)) =
      (language_counts repos).filter (fun p => decide (p.2 = k))) ∧
    top_languages repos = (sortDesc (language_counts repos)).take 5 ∧
    (0 < lang_total repos →
      language_mix repos =
        joinCommaSpace ((top_languages repos).map
          (fun p => p.1 ++ (" (").data ++
            pct (p.2 : Int) (lang_total repos : Int) ++ (")").data)) ∧
      ((top_languages repos).map
        (fun p => (p.2 : ℚ) / (lang_total repos : ℚ))).sum = 1) := by
  refine ⟨language_counts_keys repos, language_counts_sum repos,
    sortDesc_sorted _, sortDesc_perm _, fun k => sortDesc_filter _ k, rfl, ?_⟩
  intro hpos
  constructor
  · unfold language_mix
    rw [if_pos hpos]
  · apply sum_map_ratio
    · have : (0 : ℚ) < ((lang_total repos : Nat) : ℚ) := by
        exact_mod_cast hpos
      exact ne_of_gt this
    · rw [cast_sum_snd]
      rfl

/-- Three repositories with three distinct languages, one each. -/
def repoLangA : Repo :=
  { fork := false, archived := false, is_private := false, stargazers_count := 0,
    language := some (("A").data), pushed_at := none, updated_at := none,
    owner_login := none }

/-- Second language. -/
def repoLangB : Repo :=
  { fork := false, archived := false, is_private := false, stargazers_count := 0,
    language := some (("B").data), pushed_at := none, updated_at := none,
    owner_login := none }

/-- Third language. -/
def repoLangC : Repo :=
  { fork := false, archived := false, is_private := false, stargazers_count := 0,
    language := some (("C").data), pushed_at := none, updated_at := none,
    owner_login := none }

/-- A three-language repository list. -/
def reposABC : List Repo := [repoLangA, repoLangB, repoLangC]

theorem language_mix_top5_witness :
    0 < lang_total reposABC ∧
    ((top_languages reposABC).map
      (fun p => (p.2 : ℚ) / (lang_total reposABC : ℚ))).sum = 1 :=
  ⟨by decide, ((language_mix_top5 reposABC).2.2.2.2.2.2 (by decide)).2⟩

/-- Counterexample to C10 as stated: with three languages of one repo each,
each displayed percentage is `33.3%` (333 tenths), and the displayed values
sum to 99.9, not 100. -/
theorem language_mix_displayed_sum_ne_100 :
    language_mix reposABC = ("A (33.3%), B (33.3%), C (33.3%)").data ∧
    ((top_languages reposABC).map
      (fun p => (pctTenths (p.2 : Int) (lang_total reposABC : Int) : ℚ) / 10)).sum ≠ 100 := by
  constructor
  · decide
  · have htop : top_languages reposABC =
        [((("A").data), 1), ((("B").data), 1), ((("C").data), 1)] := by decide
    have htot : lang_total reposABC = 3 := by decide
    rw [htop, htot]
    have hp : pctTenths ((1 : Nat) : Int) ((3 : Nat) : Int) = 333 := by decide
    simp only [List.map_cons, List.map_nil, List.sum_cons, List.sum_nil, hp]
    norm_num
